import Mathlib

/-!
Verification of the JSON structural-validation core:
a bit-vector JSON grammar state machine (`StateBits`, `State`, `mutate`,
`encode`/`decode`, breadth-first transition-table generator) and a
structural brace/escape-tracking arithmetic circuit over the BN254 scalar
field (gate constraints from `JsonConfig::configure`, witness generation
from `JsonCircuit::synthesize`).
-/

/-- The eleven parser-status flags, with their bit indices. -/
inductive StateBits where
  | IsInvalid
  | NewDict
  | EndDict
  | Separator
  | IsKey
  | IsValue
  | KeyValueDelimiter
  | IsStr
  | IsStrEscaped
  | WordBuffering
  | WordComplete
deriving DecidableEq, Repr, Fintype

/-- Bit index of each flag (the enum discriminant in the source). -/
def StateBits.idx : StateBits → Nat
  | .IsInvalid => 0
  | .NewDict => 1
  | .EndDict => 2
  | .Separator => 3
  | .IsKey => 4
  | .IsValue => 5
  | .KeyValueDelimiter => 6
  | .IsStr => 7
  | .IsStrEscaped => 8
  | .WordBuffering => 9
  | .WordComplete => 10

/-- `StateBits::from`: inverse of `idx`; the source panics for ids above 10,
modelled as `none`. -/
def StateBits.fromIdx : Nat → Option StateBits
  | 0 => some .IsInvalid
  | 1 => some .NewDict
  | 2 => some .EndDict
  | 3 => some .Separator
  | 4 => some .IsKey
  | 5 => some .IsValue
  | 6 => some .KeyValueDelimiter
  | 7 => some .IsStr
  | 8 => some .IsStrEscaped
  | 9 => some .WordBuffering
  | 10 => some .WordComplete
  | _ => none

/-- `State` is a vector of flags (the source's `State(Vec<StateBits>)`);
order and multiplicity are observable through derived equality. -/
abbrev State : Type := List StateBits

/-- `State::new`. -/
def State.new : State := []

/-- `State::start`. -/
def State.start : State := []

/-- `State::invalid`. -/
def State.invalid : State := [StateBits.IsInvalid]

/-- `State::on`: push the flag if absent. -/
def State.on (s : State) (bit : StateBits) : State :=
  if bit ∈ s then s else s ++ [bit]

/-- `State::off`: remove all copies of the flag. -/
def State.off (s : State) (bit : StateBits) : State :=
  if bit ∈ s then s.filter (fun x => x ≠ bit) else s

/-- `State::flip`. -/
def State.flip (s : State) (bit : StateBits) : State :=
  if bit ∈ s then s.filter (fun x => x ≠ bit) else s ++ [bit]

/-- `State::check`. -/
def State.check (s : State) (bit : StateBits) : Bool :=
  decide (bit ∈ s)

/-- `State::is_null`. -/
def State.is_null (s : State) : Bool :=
  s.isEmpty

/-- `State::check_and`. -/
def State.check_and (s : State) (bits : List StateBits) : Bool :=
  bits.all (fun bit => decide (bit ∈ s))

/-- `State::check_or`. -/
def State.check_or (s : State) (bits : List StateBits) : Bool :=
  bits.any (fun bit => decide (bit ∈ s))

/-- The character classes (`SpecialChar`). -/
inductive SpecialChar where
  | Backslash
  | DoubleQuote
  | OpenBrace
  | CloseBrace
  | Colon
  | Comma
  | WhiteSpace
  | Numeric
  | Other
deriving DecidableEq, Repr

/-- Unicode code points in 0..255 with the White_Space property
(`char::is_whitespace` restricted to one byte). -/
def isWhiteSpaceCode (c : Nat) : Bool :=
  c = 9 || c = 10 || c = 11 || c = 12 || c = 13 || c = 32 || c = 133 || c = 160

/-- `SpecialChar::from`, over the character's code point. -/
def SpecialChar.ofCode (c : Nat) : SpecialChar :=
  if c = 0x5c then .Backslash
  else if c = 0x22 then .DoubleQuote
  else if c = 0x7b then .OpenBrace
  else if c = 0x7d then .CloseBrace
  else if c = 0x3a then .Colon
  else if c = 0x2c then .Comma
  else if isWhiteSpaceCode c then .WhiteSpace
  else if (0x30 ≤ c && c ≤ 0x39) || c = 0x2e then .Numeric
  else .Other

/-- `State::encode`: sum `2^idx` over the stored flags (accumulated in
vector order in the source; addition is commutative so we fold right). -/
def encode : State → Nat
  | [] => 0
  | b :: rest => 2 ^ b.idx + encode rest

/-- Body of `State::decode`: repeatedly halve `id`, switching on the bit
index for each set parity bit.  The source's loop variable is a `u64`, so
64 halvings always reach 0; `fuel` makes the recursion structural. -/
def decodeAux (fuel id i : Nat) : Option State :=
  if id = 0 then some []
  else
    match fuel with
    | 0 => none
    | fuel + 1 =>
      let rest := decodeAux fuel (id / 2) (i + 1)
      if id % 2 = 1 then
        match StateBits.fromIdx i, rest with
        | some b, some r => some (b :: r)
        | _, _ => none
      else rest

/-- `State::decode` (for `u64` inputs). -/
def State.decode (id : Nat) : Option State :=
  decodeAux 64 id 0

/-- First unconditional step mutation of `mutate`: a pending `NewDict`
resolves to `IsKey`. -/
def settle1 (s : State) : State :=
  if s.check .NewDict then (s.on .IsKey).off .NewDict else s

/-- Second unconditional step mutation: a pending `EndDict` resolves to
`WordComplete` for the outer state. -/
def settle2 (s : State) : State :=
  if s.check .EndDict then (s.on .WordComplete).off .EndDict else s

/-- Third unconditional step mutation: a pending `Separator` resolves to
`IsKey`. -/
def settle3 (s : State) : State :=
  if s.check .Separator then (s.on .IsKey).off .Separator else s

/-- Fourth unconditional step mutation: a pending `KeyValueDelimiter`
resolves to `IsValue`. -/
def settle4 (s : State) : State :=
  if s.check .KeyValueDelimiter then (s.on .IsValue).off .KeyValueDelimiter else s

/-- The four unconditional step mutations at the top of `mutate`, applied
in the source's order. -/
def settle (s : State) : State :=
  settle4 (settle3 (settle2 (settle1 s)))

/-- The match logic of `mutate`, applied after the settle rules. -/
def matchLogic (s : State) (action : SpecialChar) : State :=
  if s.check .IsStrEscaped then s.off .IsStrEscaped
  else if s.is_null then
    match action with
    | .OpenBrace => s.on .NewDict
    | .WhiteSpace => s
    | _ => State.invalid
  else if s.check .IsStr then
    match action with
    | .Backslash => s.on .IsStrEscaped
    | .DoubleQuote => ((s.on .WordComplete).off .WordBuffering).off .IsStr
    | _ => s.on .IsStr
  else
    match action with
    | .OpenBrace =>
      if s.check .IsValue && !(s.check .WordComplete) then (s.on .NewDict).off .IsValue
      else State.invalid
    | .CloseBrace =>
      if s.check .IsValue then ((s.on .EndDict).off .WordComplete).off .WordBuffering
      else State.invalid
    | .Comma =>
      if s.check .IsValue then (((s.on .Separator).off .IsValue).off .WordComplete).off .WordBuffering
      else State.invalid
    | .Colon =>
      if s.check .IsKey then ((s.on .KeyValueDelimiter).off .IsKey).off .WordComplete
      else State.invalid
    | .DoubleQuote =>
      if s.check .WordComplete then State.invalid
      else (s.on .IsStr).on .WordBuffering
    | .WhiteSpace =>
      if s.check_and [.IsValue, .WordBuffering] then (s.on .WordComplete).off .WordBuffering
      else s
    | .Numeric =>
      if s.check .IsValue && !(s.check .WordComplete) then s.on .WordBuffering
      else State.invalid
    | _ => State.invalid

/-- `mutate`: propagate the invalid sink, settle, then apply the match
logic for the incoming character class. -/
def mutate (s : State) (action : SpecialChar) : State :=
  if s.check .IsInvalid then s else matchLogic (settle s) action

/-- All intermediate states of folding `mutate` over a list of character
codes, starting from `s` (the start state in the tests). -/
def runStates (s : State) : List Nat → List State
  | [] => [s]
  | c :: cs => s :: runStates (mutate s (SpecialChar.ofCode c)) cs

/-- States reachable from the empty start state via `mutate`. -/
inductive Reachable : State → Prop where
  | start : Reachable State.start
  | step {s : State} (a : SpecialChar) : Reachable s → Reachable (mutate s a)

example : mutate (mutate (mutate State.start .OpenBrace) .DoubleQuote) .Backslash =
    [.IsKey, .IsStr, .WordBuffering, .IsStrEscaped] := by decide

example : State.decode 912 = some [.IsKey, .IsStr, .IsStrEscaped, .WordBuffering] := by decide

example : encode [.IsKey, .IsStr, .WordBuffering, .IsStrEscaped] = 912 := by decide

/-- One transition-table row `(before, after, input code)`; the source
stores the input as a `char` with code points 0 through 255. -/
abbrev TransitionRow : Type := Nat × Nat × Nat

/-- Inner loop of `bfs_gen_lookup_table`: for `count` consecutive input
codes starting at `j`, emit the row for the popped state and push the
resulting encoding onto the work stack if it is in neither the visited
set nor the stack.  Returns the emitted rows and the final stack. -/
def charLoop (before : Nat) (state : State) (memory : List Nat) :
    Nat → Nat → List Nat → List TransitionRow × List Nat
  | _, 0, buffer => ([], buffer)
  | j, count + 1, buffer =>
    let after := encode (mutate state (SpecialChar.ofCode j))
    let buffer1 := if after ∉ memory ∧ after ∉ buffer then after :: buffer else buffer
    let rest := charLoop before state memory (j + 1) count buffer1
    ((before, after, j) :: rest.1, rest.2)

/-- Outer loop of `bfs_gen_lookup_table`: pop a state encoding from the
work stack (`bfs_buffer`, a `Vec` used as a stack, here with its top at
the head), record it as visited (`bfs_memory`), decode it (a panic on a
bad encoding is `none`), and append its 256 rows.  The source's `while`
loop is modelled with a fuel bound on the number of pops; each distinct
encoding is pushed at most once and every pushed encoding is below
`2 ^ 11`, so 8192 units of fuel can never be exhausted. -/
def bfsLoop : Nat → List TransitionRow → List Nat → List Nat → Option (List TransitionRow)
  | _, table, [], _ => some table
  | 0, _, _ :: _, _ => none
  | fuel + 1, table, before :: buffer, memory =>
    match State.decode before with
    | none => none
    | some state =>
      let memory1 := before :: memory
      let step := charLoop before state memory1 0 256 buffer
      bfsLoop fuel (table ++ step.1) step.2 memory1

/-- `bfs_gen_lookup_table`. -/
def bfs_gen_lookup_table : Option (List TransitionRow) :=
  bfsLoop 8192 [] [encode State.start] []

/-- The generated transition table (shown below to be `some`). -/
def lookupTable : List TransitionRow :=
  bfs_gen_lookup_table.getD []

/-- The re-derivation check the source's `test_gen_lookup_table` performs
on each row: decode `before`, apply the transition function to the
classified input, and compare the encoding with the stored `after`. -/
def rowDeterministic (r : TransitionRow) : Bool :=
  match State.decode r.1 with
  | some s => decide (r.2.1 = encode (mutate s (SpecialChar.ofCode r.2.2)))
  | none => false

/-- BN254 scalar-field modulus (`halo2curves::bn256::Fr`, the field the
source instantiates the circuit with in its tests). -/
def pBN : Nat := 21888242871839275222246405745257275088548364400416034343698204186575808495617

instance : NeZero pBN := ⟨by decide⟩

/-- Circuit field elements. -/
abbrev Fq : Type := Fin pBN

/-- `b ^ e % pBN` for small `e` (used by the modular exponentiation). -/
def powSmall (b : Nat) : Nat → Nat
  | 0 => 1
  | n + 1 => b * powSmall b n % pBN

/-- Modular exponentiation by nibbles of the exponent; `fuel = 64`
covers any exponent below `16 ^ 64`. -/
def powMod16 : Nat → Nat → Nat → Nat
  | 0, _, _ => 1
  | fuel + 1, b, e =>
    if e = 0 then 1
    else
      let h := powMod16 fuel b (e / 16)
      let h2 := h * h % pBN
      let h4 := h2 * h2 % pBN
      let h8 := h4 * h4 % pBN
      let h16 := h8 * h8 % pBN
      h16 * powSmall b (e % 16) % pBN

/-- Field inversion (`F::invert`), via Fermat exponentiation. -/
def fInv (x : Fq) : Fq := Fin.ofNat' pBN (powMod16 64 x.val (pBN - 2))

/-- Field element from a character code. -/
def fc (c : Nat) : Fq := Fin.ofNat' pBN c

/-- One assigned row of the structural circuit: the advice cells of
`JsonConfig` at a given row index. -/
structure CircuitRow where
  raw : Fq
  backslash_inv : Fq
  double_quote_inv : Fq
  open_brace_inv : Fq
  close_brace_inv : Fq
  backslash : Fq
  double_quote : Fq
  open_brace : Fq
  close_brace : Fq
  not_str : Fq
  str_escaped : Fq
  level : Fq
  level_inv : Fq
deriving DecidableEq, Repr

/-- Zero test for one polynomial gate expression factor. -/
def boolCk (x : Fq) : Bool := decide (x * (1 - x) = 0)

/-- Gate `Booleans` (selector `json_all`). -/
def gateBooleans (cur : CircuitRow) : Bool :=
  boolCk cur.not_str && boolCk cur.backslash && boolCk cur.double_quote &&
  boolCk cur.open_brace && boolCk cur.close_brace && boolCk cur.str_escaped

/-- Gate `Char booleans` (selector `body_selector`). -/
def gateCharBooleans (cur : CircuitRow) : Bool :=
  decide ((cur.raw - 0x5c) * cur.backslash = 0) &&
  decide ((cur.raw - 0x22) * cur.double_quote = 0) &&
  decide ((cur.raw - 0x7b) * cur.open_brace = 0) &&
  decide ((cur.raw - 0x7d) * cur.close_brace = 0) &&
  decide ((cur.raw - 0x5c) * cur.backslash_inv + cur.backslash - 1 = 0) &&
  decide ((cur.raw - 0x22) * cur.double_quote_inv + cur.double_quote - 1 = 0) &&
  decide ((cur.raw - 0x7b) * cur.open_brace_inv + cur.open_brace - 1 = 0) &&
  decide ((cur.raw - 0x7d) * cur.close_brace_inv + cur.close_brace - 1 = 0)

/-- Start-row part of gate `Terminal conditions` (`expr_7` and `expr_8`
of the source are the same equation and appear here once). -/
def gateTerminalStart (cur : CircuitRow) : Bool :=
  decide (cur.raw - 0x7b = 0) &&
  decide (1 - cur.not_str = 0) &&
  decide (1 - cur.open_brace = 0) &&
  decide (cur.backslash = 0) &&
  decide (cur.close_brace = 0) &&
  decide (cur.double_quote = 0) &&
  decide (cur.level - 1 = 0)

/-- End-row part of gate `Terminal conditions`. -/
def gateTerminalEnd (cur : CircuitRow) : Bool :=
  decide (1 - cur.not_str = 0) &&
  decide (1 - cur.close_brace = 0)

/-- Gate `Toggle not_str` (selector `body_selector`, reads the previous
row). -/
def gateToggle (prev cur : CircuitRow) : Bool :=
  decide ((1 - cur.double_quote) * (cur.not_str - prev.not_str) = 0) &&
  decide (cur.double_quote * (1 - prev.str_escaped) * (cur.not_str + prev.not_str - 1) = 0)

/-- Gate `Backslash escaping` (selector `body_selector`). -/
def gateEscape (prev cur : CircuitRow) : Bool :=
  decide (cur.not_str * cur.backslash = 0) &&
  decide (prev.str_escaped * cur.str_escaped = 0) &&
  decide ((1 - cur.not_str) * (1 - prev.str_escaped) * (cur.backslash - cur.str_escaped) = 0)

/-- Body part of gate `Count open-close levels`. -/
def gateLevelBody (prev cur : CircuitRow) : Bool :=
  decide ((1 - cur.open_brace - cur.close_brace) * (cur.level - prev.level) = 0) &&
  decide (cur.not_str * cur.open_brace * (cur.level - prev.level - 1) = 0) &&
  decide (cur.not_str * cur.close_brace * (cur.level - prev.level + 1) = 0)

/-- End part of gate `Count open-close levels` (`expr_4`). -/
def gateLevelEnd (prev cur : CircuitRow) : Bool :=
  decide (cur.not_str * cur.close_brace * (cur.level - prev.level + 1) = 0)

/-- End part of gate `Check level structure`. -/
def gateLevelStructEnd (cur : CircuitRow) : Bool :=
  decide (cur.level = 0)

/-- Body part of gate `Check level structure`. -/
def gateLevelStructBody (cur : CircuitRow) : Bool :=
  decide (1 - cur.level * cur.level_inv = 0)

/-- All gates enabled at row `i` of an `n`-row assignment, for `i ≥ 1`
(`synthesize` enables `body_selector` for `0 < i < n - 1` and
`end_selector` for the last row, and `json_all` everywhere). -/
def rowCheck (n i : Nat) (prev cur : CircuitRow) : Bool :=
  gateBooleans cur &&
  (if 0 < i ∧ i < n - 1 then
    gateCharBooleans cur && gateToggle prev cur && gateEscape prev cur &&
    gateLevelBody prev cur && gateLevelStructBody cur
  else true) &&
  (if i ≠ 0 ∧ ¬ (i < n - 1) then
    gateTerminalEnd cur && gateLevelEnd prev cur && gateLevelStructEnd cur
  else true)

/-- Check rows `i, i+1, ...` given the previous row. -/
def checkFrom (n : Nat) : Nat → CircuitRow → List CircuitRow → Bool
  | _, _, [] => true
  | i, prev, cur :: rest => rowCheck n i prev cur && checkFrom n (i + 1) cur rest

/-- The whole constraint system of `JsonConfig::configure` on a witness
assignment, with the selector pattern of `JsonCircuit::synthesize`:
row 0 carries `start_selector` and `json_all` only. -/
def circuitCheck (w : List CircuitRow) : Bool :=
  match w with
  | [] => true
  | first :: rest =>
    gateBooleans first && gateTerminalStart first && checkFrom w.length 1 first rest

/-- The row-to-row carry state of `JsonCircuit::synthesize`. -/
structure SynCarry where
  not_str : Fq
  level : Fq
  level_inv : Fq
  str_esc : Fq
  str_esc_prev : Fq

/-- One iteration of the witness-generation loop in `synthesize`: match
the raw symbol against the four structural constants (with their side
effects on `not_str`, `level`, `level_inv`, `str_esc`), nullify a spent
escape, and assign all columns of the row. -/
def synthStep (carry : SynCarry) (r : Fq) : SynCarry × CircuitRow :=
  let notStr1 := if r = 0x22 ∧ carry.str_esc_prev = 0 then 1 - carry.not_str else carry.not_str
  let level1 :=
    if r = 0x7b then carry.level + carry.not_str
    else if r = 0x7d then carry.level - carry.not_str
    else carry.level
  let levelInv1 :=
    if r = 0x7b ∨ r = 0x7d then (if level1 = 0 then 1 else fInv level1)
    else carry.level_inv
  let strEsc1 :=
    if r = 0x5c ∧ carry.str_esc_prev = 0 then (1 - notStr1) * 1 else carry.str_esc
  let strEsc2 := strEsc1 * (1 - carry.str_esc_prev)
  let row : CircuitRow :=
    { raw := r
      backslash_inv := if r = 0x5c then 1 else fInv (r - 0x5c)
      double_quote_inv := if r = 0x22 then 1 else fInv (r - 0x22)
      open_brace_inv := if r = 0x7b then 1 else fInv (r - 0x7b)
      close_brace_inv := if r = 0x7d then 1 else fInv (r - 0x7d)
      backslash := if r = 0x5c then 1 else 0
      double_quote := if r = 0x22 then 1 else 0
      open_brace := if r = 0x7b then 1 else 0
      close_brace := if r = 0x7d then 1 else 0
      not_str := notStr1
      str_escaped := strEsc2
      level := level1
      level_inv := levelInv1 }
  ({ not_str := notStr1, level := level1, level_inv := levelInv1,
     str_esc := strEsc2, str_esc_prev := strEsc2 }, row)

/-- The witness-generation fold of `synthesize`. -/
def synthGo (carry : SynCarry) : List Fq → List CircuitRow
  | [] => []
  | r :: rs =>
    let s := synthStep carry r
    s.2 :: synthGo s.1 rs

/-- Witness rows assigned by `synthesize` for a raw input sequence
(initial carry: `not_str = 1`, `level = 0`, `level_inv = 1`,
`str_esc = str_esc_prev = 0`). -/
def synthRows (raws : List Fq) : List CircuitRow :=
  synthGo { not_str := 1, level := 0, level_inv := 1, str_esc := 0, str_esc_prev := 0 } raws

/-- Field encoding of a character-code sequence. -/
def toF (codes : List Nat) : List Fq := codes.map fc

lemma mem_on {s : State} {b c : StateBits} : b ∈ State.on s c ↔ b = c ∨ b ∈ s := by
  unfold State.on
  split
  · rename_i h
    constructor
    · exact Or.inr
    · rintro (rfl | hb)
      · exact h
      · exact hb
  · simp [List.mem_append, or_comm]

lemma mem_off {s : State} {b c : StateBits} : b ∈ State.off s c ↔ b ∈ s ∧ b ≠ c := by
  unfold State.off
  split
  · simp [List.mem_filter]
  · rename_i h
    constructor
    · exact fun hb => ⟨hb, fun hbc => h (hbc ▸ hb)⟩
    · exact fun hb => hb.1

lemma check_iff {s : State} {b : StateBits} : State.check s b = true ↔ b ∈ s := by
  simp [State.check]

lemma check_false_iff {s : State} {b : StateBits} : State.check s b = false ↔ b ∉ s := by
  simp [State.check]

lemma is_null_iff {s : State} : State.is_null s = true ↔ s = [] := by
  simp [State.is_null]

lemma invalid_nodup : State.invalid.Nodup := by decide

lemma nodup_on {s : State} {b : StateBits} (h : s.Nodup) : (State.on s b).Nodup := by
  unfold State.on
  split
  · exact h
  · rename_i hb
    exact List.Nodup.append h (List.nodup_singleton b)
      (fun x hx hxb => hb ((List.mem_singleton.1 hxb) ▸ hx))

lemma nodup_off {s : State} {b : StateBits} (h : s.Nodup) : (State.off s b).Nodup := by
  unfold State.off
  split
  · exact h.filter _
  · exact h

lemma nodup_flip {s : State} {b : StateBits} (h : s.Nodup) : (State.flip s b).Nodup := by
  unfold State.flip
  split
  · exact h.filter _
  · rename_i hb
    exact List.Nodup.append h (List.nodup_singleton b)
      (fun x hx hxb => hb ((List.mem_singleton.1 hxb) ▸ hx))

lemma nodup_settle1 {s : State} (h : s.Nodup) : (settle1 s).Nodup := by
  unfold settle1
  split
  · exact nodup_off (nodup_on h)
  · exact h

lemma nodup_settle2 {s : State} (h : s.Nodup) : (settle2 s).Nodup := by
  unfold settle2
  split
  · exact nodup_off (nodup_on h)
  · exact h

lemma nodup_settle3 {s : State} (h : s.Nodup) : (settle3 s).Nodup := by
  unfold settle3
  split
  · exact nodup_off (nodup_on h)
  · exact h

lemma nodup_settle4 {s : State} (h : s.Nodup) : (settle4 s).Nodup := by
  unfold settle4
  split
  · exact nodup_off (nodup_on h)
  · exact h

lemma nodup_settle {s : State} (h : s.Nodup) : (settle s).Nodup :=
  nodup_settle4 (nodup_settle3 (nodup_settle2 (nodup_settle1 h)))

lemma nodup_matchLogic {s : State} (a : SpecialChar) (h : s.Nodup) : (matchLogic s a).Nodup := by
  unfold matchLogic
  repeat' split
  all_goals repeat (first | assumption | exact invalid_nodup | apply nodup_on | apply nodup_off)

lemma nodup_mutate {s : State} (a : SpecialChar) (h : s.Nodup) : (mutate s a).Nodup := by
  unfold mutate
  split
  · exact h
  · exact nodup_matchLogic a (nodup_settle h)

lemma reach_nodup {s : State} (h : Reachable s) : s.Nodup := by
  induction h with
  | start => exact List.nodup_nil
  | step a _ ih => exact nodup_mutate a ih

lemma encode_eq_sum (s : State) : encode s = (s.map (fun b => 2 ^ b.idx)).sum := by
  induction s with
  | nil => rfl
  | cons b t ih => simp [encode, ih]

/-- The eleven flags in bit-index order. -/
def allBits : List StateBits :=
  [.IsInvalid, .NewDict, .EndDict, .Separator, .IsKey, .IsValue, .KeyValueDelimiter,
   .IsStr, .IsStrEscaped, .WordBuffering, .WordComplete]

lemma mem_allBits (b : StateBits) : b ∈ allBits := by cases b <;> decide

lemma allBits_nodup : allBits.Nodup := by decide

lemma allBits_sorted : allBits.Pairwise (fun a b => a.idx < b.idx) := by decide

/-- The flags of `s`, listed in bit-index order. -/
def canon (s : State) : State := allBits.filter (fun b => decide (b ∈ s))

lemma mem_canon {s : State} {b : StateBits} : b ∈ canon s ↔ b ∈ s := by
  simp [canon, List.mem_filter, mem_allBits]

lemma canon_nodup (s : State) : (canon s).Nodup := allBits_nodup.filter _

lemma canon_sorted (s : State) : (canon s).Pairwise (fun a b => a.idx < b.idx) :=
  allBits_sorted.sublist (List.filter_sublist _)

lemma canon_perm {s : State} (h : s.Nodup) : s.Perm (canon s) :=
  (List.perm_ext_iff_of_nodup h (canon_nodup s)).2 (fun b => by simp [mem_canon])

lemma encode_perm {s t : State} (h : s.Perm t) : encode s = encode t := by
  rw [encode_eq_sum, encode_eq_sum]
  exact (h.map _).sum_eq

lemma idx_le_ten (b : StateBits) : b.idx ≤ 10 := by cases b <;> decide

lemma fromIdx_idx (b : StateBits) : StateBits.fromIdx b.idx = some b := by cases b <;> rfl

/-- Partial sums of `encode` as seen by `decodeAux` at recursion level `i`. -/
def esum (i : Nat) (t : State) : Nat := (t.map (fun b => 2 ^ (b.idx - i))).sum

lemma esum_zero (t : State) : esum 0 t = encode t := by
  rw [encode_eq_sum]
  simp [esum]

lemma esum_shift {i : Nat} {t : State} (h : ∀ b ∈ t, i + 1 ≤ b.idx) :
    esum i t = 2 * esum (i + 1) t := by
  induction t with
  | nil => simp [esum]
  | cons b r ih =>
    have hb := h b (by simp)
    have hr : ∀ x ∈ r, i + 1 ≤ x.idx := fun x hx => h x (by simp [hx])
    have hpow : 2 ^ (b.idx - i) = 2 * 2 ^ (b.idx - (i + 1)) := by
      have hd : b.idx - i = (b.idx - (i + 1)) + 1 := by omega
      rw [hd, pow_succ]
      ring
    simp only [esum, List.map_cons, List.sum_cons] at *
    rw [hpow, ih hr]
    ring

lemma decodeAux_succ (fuel id i : Nat) (h : id ≠ 0) :
    decodeAux (fuel + 1) id i =
      if id % 2 = 1 then
        match StateBits.fromIdx i, decodeAux fuel (id / 2) (i + 1) with
        | some b, some r => some (b :: r)
        | _, _ => none
      else decodeAux fuel (id / 2) (i + 1) := by
  conv_lhs => unfold decodeAux
  rw [if_neg h]

lemma decodeAux_esum : ∀ fuel i (t : State), t.Pairwise (fun a b => a.idx < b.idx) →
    (∀ b ∈ t, i ≤ b.idx) → 11 ≤ fuel + i → decodeAux fuel (esum i t) i = some t := by
  intro fuel
  induction fuel with
  | zero =>
    intro i t _ hge hf
    cases t with
    | nil => simp [decodeAux, esum]
    | cons b r =>
      have h1 := hge b (by simp)
      have h2 := idx_le_ten b
      omega
  | succ fuel ih =>
    intro i t hp hge hf
    cases t with
    | nil => simp [decodeAux, esum]
    | cons b r =>
      have hble := hge b (by simp)
      have hpc := List.pairwise_cons.1 hp
      rcases Nat.eq_or_lt_of_le hble with hbi | hbi
      · have hr1 : ∀ x ∈ r, i + 1 ≤ x.idx := by
          intro x hx
          have := hpc.1 x hx
          omega
        have hes : esum i (b :: r) = 1 + 2 * esum (i + 1) r := by
          have hshift : esum i r = 2 * esum (i + 1) r := esum_shift hr1
          simp only [esum, List.map_cons, List.sum_cons] at *
          rw [hshift]
          have hz : b.idx - i = 0 := by omega
          simp [hz]
        have hrest : decodeAux fuel (esum (i + 1) r) (i + 1) = some r :=
          ih (i + 1) r hpc.2 hr1 (by omega)
        have hfrom : StateBits.fromIdx i = some b := by
          rw [hbi]
          exact fromIdx_idx b
        rw [hes, decodeAux_succ _ _ _ (by omega)]
        have hmod : (1 + 2 * esum (i + 1) r) % 2 = 1 := by omega
        have hdiv : (1 + 2 * esum (i + 1) r) / 2 = esum (i + 1) r := by omega
        simp [hmod, hdiv, hrest, hfrom]
      · have h1 : ∀ x ∈ b :: r, i + 1 ≤ x.idx := by
          intro x hx
          rcases List.mem_cons.1 hx with rfl | hx
          · omega
          · have := hpc.1 x hx
            omega
        have hpos : 0 < esum (i + 1) (b :: r) := by
          have h2p : 0 < 2 ^ (b.idx - (i + 1)) := pow_pos (by norm_num) _
          simp only [esum, List.map_cons, List.sum_cons]
          omega
        have hrest : decodeAux fuel (esum (i + 1) (b :: r)) (i + 1) = some (b :: r) :=
          ih (i + 1) (b :: r) hp h1 (by omega)
        rw [esum_shift h1, decodeAux_succ _ _ _ (by omega)]
        have hmod : 2 * esum (i + 1) (b :: r) % 2 = 0 := by omega
        have hdiv : 2 * esum (i + 1) (b :: r) / 2 = esum (i + 1) (b :: r) := by omega
        simp [hmod, hdiv, hrest]

lemma decode_encode_sorted {t : State} (hp : t.Pairwise (fun a b => a.idx < b.idx)) :
    State.decode (encode t) = some t := by
  rw [State.decode, ← esum_zero]
  exact decodeAux_esum 64 0 t hp (fun b _ => Nat.zero_le _) (by omega)

lemma fromIdx_eq {i : Nat} {b : StateBits} (h : StateBits.fromIdx i = some b) : b.idx = i := by
  unfold StateBits.fromIdx at h
  split at h <;> first | (cases h; rfl) | exact Option.noConfusion h

lemma decodeAux_sorted : ∀ fuel id i (t : State), decodeAux fuel id i = some t →
    t.Pairwise (fun a b => a.idx < b.idx) ∧ ∀ b ∈ t, i ≤ b.idx := by
  intro fuel
  induction fuel with
  | zero =>
    intro id i t h
    by_cases h0 : id = 0
    · unfold decodeAux at h
      rw [if_pos h0] at h
      cases h
      exact ⟨List.Pairwise.nil, by simp⟩
    · unfold decodeAux at h
      rw [if_neg h0] at h
      exact Option.noConfusion h
  | succ fuel ih =>
    intro id i t h
    by_cases h0 : id = 0
    · unfold decodeAux at h
      rw [if_pos h0] at h
      cases h
      exact ⟨List.Pairwise.nil, by simp⟩
    · rw [decodeAux_succ _ _ _ h0] at h
      by_cases hm : id % 2 = 1
      · rw [if_pos hm] at h
        cases hfi : StateBits.fromIdx i with
        | none =>
          rw [hfi] at h
          cases hrest : decodeAux fuel (id / 2) (i + 1) <;> rw [hrest] at h <;>
            exact Option.noConfusion h
        | some b =>
          cases hrest : decodeAux fuel (id / 2) (i + 1) with
          | none =>
            rw [hfi, hrest] at h
            exact Option.noConfusion h
          | some r =>
            rw [hfi, hrest] at h
            cases h
            have hr := ih (id / 2) (i + 1) r hrest
            have hbi : b.idx = i := fromIdx_eq hfi
            constructor
            · refine List.pairwise_cons.2 ⟨fun x hx => ?_, hr.1⟩
              have := hr.2 x hx
              omega
            · intro x hx
              rcases List.mem_cons.1 hx with rfl | hx
              · omega
              · have := hr.2 x hx
                omega
      · rw [if_neg hm] at h
        have hr := ih (id / 2) (i + 1) t h
        exact ⟨hr.1, fun b hb => by have := hr.2 b hb; omega⟩

lemma sorted_nodup {t : State} (h : t.Pairwise (fun a b => a.idx < b.idx)) : t.Nodup := by
  refine h.imp ?_
  intro a b hab heq
  subst heq
  exact Nat.lt_irrefl _ hab

lemma decode_nodup {m : Nat} {t : State} (h : State.decode m = some t) : t.Nodup :=
  sorted_nodup (decodeAux_sorted 64 m 0 t h).1

lemma sum_le_of_sublist {l1 l2 : List Nat} (h : l1.Sublist l2) : l1.sum ≤ l2.sum := by
  induction h with
  | slnil => exact Nat.le_refl _
  | cons a _ ih =>
    simp only [List.sum_cons]
    omega
  | cons₂ a _ ih =>
    simp only [List.sum_cons]
    omega

lemma encode_lt {s : State} (h : s.Nodup) : encode s < 2 ^ 11 := by
  have h1 : encode s = encode (canon s) := encode_perm (canon_perm h)
  have h2 : encode (canon s) ≤ encode allBits := by
    rw [encode_eq_sum, encode_eq_sum]
    exact sum_le_of_sublist ((List.filter_sublist _).map _)
  have h3 : encode allBits = 2047 := by decide
  omega

lemma idx_inj : ∀ (a b : StateBits), a.idx = b.idx → a = b := by decide

/-- Claim C3: `IsInvalid` is absorbing — `mutate` returns any state with
the `IsInvalid` flag completely unchanged, for every character class. -/
theorem c3_invalid_absorbing (s : State) (a : SpecialChar)
    (h : State.check s .IsInvalid = true) : mutate s a = s := by
  unfold mutate
  rw [if_pos h]

theorem c3_invalid_absorbing_witness : mutate State.invalid SpecialChar.Colon = State.invalid :=
  c3_invalid_absorbing State.invalid SpecialChar.Colon (by decide)

/-- Claim C1 counterexample: the state reached from the empty start state
by reading an open brace, a double quote and a backslash is the list
`[IsKey, IsStr, WordBuffering, IsStrEscaped]` (in push order), but
decoding its encoding returns the flags sorted by bit index, which is a
different `State` value: `decode (encode s) = s` fails for this
reachable `s`. -/
theorem c1_counterexample :
    Reachable [StateBits.IsKey, StateBits.IsStr, StateBits.WordBuffering, StateBits.IsStrEscaped] ∧
    State.decode (encode [StateBits.IsKey, StateBits.IsStr, StateBits.WordBuffering, StateBits.IsStrEscaped]) ≠
      some [StateBits.IsKey, StateBits.IsStr, StateBits.WordBuffering, StateBits.IsStrEscaped] := by
  constructor
  · have h : mutate (mutate (mutate State.start .OpenBrace) .DoubleQuote) .Backslash =
        [StateBits.IsKey, StateBits.IsStr, StateBits.WordBuffering, StateBits.IsStrEscaped] := by
      decide
    exact h ▸ Reachable.step _ (Reachable.step _ (Reachable.step _ Reachable.start))
  · decide

/-- Claim C1 amended: for every reachable state `s`, decoding the
encoding succeeds and returns a state with exactly the same flag set as
`s` (the flags sorted by bit index); list equality can fail because
`mutate` pushes flags in program order. -/
theorem c1_roundtrip_amended (s : State) (h : Reachable s) :
    ∃ t, State.decode (encode s) = some t ∧ ∀ b, (b ∈ t ↔ b ∈ s) := by
  refine ⟨canon s, ?_, fun b => mem_canon⟩
  rw [encode_perm (canon_perm (reach_nodup h))]
  exact decode_encode_sorted (canon_sorted s)

theorem c1_roundtrip_amended_witness :
    ∃ t, State.decode (encode [StateBits.IsValue]) = some t ∧
      ∀ b, (b ∈ t ↔ b ∈ ([StateBits.IsValue] : State)) := by
  have h : mutate (mutate (mutate State.start .OpenBrace) .Colon) .WhiteSpace =
      [StateBits.IsValue] := by decide
  exact c1_roundtrip_amended [StateBits.IsValue]
    (h ▸ Reachable.step _ (Reachable.step _ (Reachable.step _ Reachable.start)))

/-- Claim C10: the constructors produce duplicate-free states, `decode`
only ever returns duplicate-free states, the operations `on`, `off`,
`flip` and `mutate` preserve freedom from duplicates, and consequently a
duplicate-free state has pairwise-distinct bit indices and encodes to a
sum of distinct powers of two below `2 ^ 11`. -/
theorem c10_nodup_invariant :
    State.new.Nodup ∧ State.start.Nodup ∧ State.invalid.Nodup ∧
    (∀ (m : Nat) (t : State), State.decode m = some t → t.Nodup) ∧
    (∀ (s : State) (b : StateBits), s.Nodup →
      (State.on s b).Nodup ∧ (State.off s b).Nodup ∧ (State.flip s b).Nodup) ∧
    (∀ (s : State) (a : SpecialChar), s.Nodup → (mutate s a).Nodup) ∧
    (∀ s : State, s.Nodup → (s.map StateBits.idx).Nodup ∧ encode s < 2 ^ 11) := by
  refine ⟨List.nodup_nil, List.nodup_nil, invalid_nodup, fun m t h => decode_nodup h,
    fun s b h => ⟨nodup_on h, nodup_off h, nodup_flip h⟩,
    fun s a h => nodup_mutate a h,
    fun s h => ⟨h.map_on ?_, encode_lt h⟩⟩
  intro a _ b _ hab
  exact idx_inj a b hab

theorem c10_nodup_invariant_witness :
    (State.on [StateBits.IsKey] StateBits.IsStr).Nodup ∧
    (mutate [StateBits.IsKey] SpecialChar.Colon).Nodup ∧
    ([StateBits.IsKey, StateBits.IsStr, StateBits.IsStrEscaped, StateBits.WordBuffering] : State).Nodup ∧
    (([StateBits.IsKey] : State).map StateBits.idx).Nodup ∧ encode [StateBits.IsKey] < 2 ^ 11 := by
  refine ⟨(c10_nodup_invariant.2.2.2.2.1 [StateBits.IsKey] StateBits.IsStr (by decide)).1,
    c10_nodup_invariant.2.2.2.2.2.1 [StateBits.IsKey] SpecialChar.Colon (by decide),
    c10_nodup_invariant.2.2.2.1 912 _ (by decide),
    c10_nodup_invariant.2.2.2.2.2.2 [StateBits.IsKey] (by decide)⟩

/-- Claim C8: folding the transition function from the empty start state
over the character codes of an object whose value token is `1.2.3`
(two decimal points, codes `0x2e`) never reaches a state with the
`IsInvalid` flag set: the grammar model accepts multi-decimal numerals. -/
theorem c8_multi_decimal_accepted :
    (runStates State.start
      [0x7b, 0x22, 0x61, 0x22, 0x3a, 0x20, 0x31, 0x2e, 0x32, 0x2e, 0x33, 0x7d]).all
      (fun s => !(State.check s .IsInvalid)) = true := by decide

lemma charLoop_mem_fst {before : Nat} {state : State} {memory : List Nat} :
    ∀ (count j : Nat) (buffer : List Nat) (c : Nat), j ≤ c → c < j + count →
      (before, encode (mutate state (SpecialChar.ofCode c)), c) ∈
        (charLoop before state memory j count buffer).1 := by
  intro count
  induction count with
  | zero =>
    intro j buffer c h1 h2
    omega
  | succ count ih =>
    intro j buffer c h1 h2
    unfold charLoop
    rcases Nat.eq_or_lt_of_le h1 with rfl | hlt
    · exact List.mem_cons_self _ _
    · exact List.mem_cons_of_mem _ (ih (j + 1) _ c hlt (by omega))

lemma charLoop_fst_shape {before : Nat} {state : State} {memory : List Nat} :
    ∀ (count j : Nat) (buffer : List Nat) (r : TransitionRow),
      r ∈ (charLoop before state memory j count buffer).1 →
      ∃ c, r = (before, encode (mutate state (SpecialChar.ofCode c)), c) := by
  intro count
  induction count with
  | zero =>
    intro j buffer r hr
    simp [charLoop] at hr
  | succ count ih =>
    intro j buffer r hr
    unfold charLoop at hr
    rcases List.mem_cons.1 hr with rfl | hr
    · exact ⟨j, rfl⟩
    · exact ih (j + 1) _ r hr

lemma charLoop_buffer_mono {before : Nat} {state : State} {memory : List Nat} :
    ∀ (count j : Nat) (buffer : List Nat) (e : Nat), e ∈ buffer →
      e ∈ (charLoop before state memory j count buffer).2 := by
  intro count
  induction count with
  | zero =>
    intro j buffer e he
    exact he
  | succ count ih =>
    intro j buffer e he
    unfold charLoop
    refine ih (j + 1) _ e ?_
    split
    · exact List.mem_cons_of_mem _ he
    · exact he

lemma charLoop_covers {before : Nat} {state : State} {memory : List Nat} :
    ∀ (count j : Nat) (buffer : List Nat) (c : Nat), j ≤ c → c < j + count →
      encode (mutate state (SpecialChar.ofCode c)) ∈ memory ∨
      encode (mutate state (SpecialChar.ofCode c)) ∈
        (charLoop before state memory j count buffer).2 := by
  intro count
  induction count with
  | zero =>
    intro j buffer c h1 h2
    omega
  | succ count ih =>
    intro j buffer c h1 h2
    rcases Nat.eq_or_lt_of_le h1 with rfl | hlt
    · by_cases hmem : encode (mutate state (SpecialChar.ofCode j)) ∈ memory
      · exact Or.inl hmem
      · refine Or.inr ?_
        unfold charLoop
        dsimp only
        by_cases hbuf : encode (mutate state (SpecialChar.ofCode j)) ∈ buffer
        · refine charLoop_buffer_mono count (j + 1) _ _ ?_
          split
          · exact List.mem_cons_of_mem _ hbuf
          · exact hbuf
        · refine charLoop_buffer_mono count (j + 1) _ _ ?_
          rw [if_pos ⟨hmem, hbuf⟩]
          exact List.mem_cons_self _ _
    · have := ih (j + 1)
        (if encode (mutate state (SpecialChar.ofCode j)) ∉ memory ∧
            encode (mutate state (SpecialChar.ofCode j)) ∉ buffer
         then encode (mutate state (SpecialChar.ofCode j)) :: buffer else buffer)
        c hlt (by omega)
      unfold charLoop
      dsimp only
      exact this

lemma charLoop_buffer_shape {before : Nat} {state : State} {memory : List Nat} :
    ∀ (count j : Nat) (buffer : List Nat),
      ∃ P : List Nat, (charLoop before state memory j count buffer).2 = P ++ buffer ∧
        P.Nodup ∧ ∀ e ∈ P, e ∉ memory ∧ e ∉ buffer ∧
          ∃ c, e = encode (mutate state (SpecialChar.ofCode c)) := by
  intro count
  induction count with
  | zero =>
    intro j buffer
    exact ⟨[], rfl, List.nodup_nil, by simp⟩
  | succ count ih =>
    intro j buffer
    unfold charLoop
    dsimp only
    by_cases hg : encode (mutate state (SpecialChar.ofCode j)) ∉ memory ∧
        encode (mutate state (SpecialChar.ofCode j)) ∉ buffer
    · rw [if_pos hg]
      obtain ⟨P, hP, hPnd, hPp⟩ := ih (j + 1) (encode (mutate state (SpecialChar.ofCode j)) :: buffer)
      refine ⟨P ++ [encode (mutate state (SpecialChar.ofCode j))], ?_, ?_, ?_⟩
      · rw [hP]
        simp
      · refine List.Nodup.append hPnd (List.nodup_singleton _) ?_
        intro x hx hxe
        have := (hPp x hx).2.1
        rw [List.mem_singleton.1 hxe] at this
        exact this (List.mem_cons_self _ _)
      · intro e he
        rcases List.mem_append.1 he with heP | heS
        · obtain ⟨h1, h2, h3⟩ := hPp e heP
        
          exact ⟨h1, fun hb => h2 (List.mem_cons_of_mem _ hb), h3⟩
        · rw [List.mem_singleton.1 heS]
          exact ⟨hg.1, hg.2, j, rfl⟩
    · rw [if_neg hg]
      obtain ⟨P, hP, hPnd, hPp⟩ := ih (j + 1) buffer
      exact ⟨P, hP, hPnd, hPp⟩

lemma bfsLoop_sub : ∀ (fuel : Nat) (tbl : List TransitionRow) (buf mem : List Nat)
    (res : List TransitionRow), bfsLoop fuel tbl buf mem = some res →
    ∀ r ∈ tbl, r ∈ res := by
  intro fuel
  induction fuel with
  | zero =>
    intro tbl buf mem res h
    cases buf with
    | nil =>
      cases h
      exact fun r hr => hr
    | cons b buffer => exact Option.noConfusion h
  | succ fuel ih =>
    intro tbl buf mem res h
    cases buf with
    | nil =>
      cases h
      exact fun r hr => hr
    | cons b buffer =>
      unfold bfsLoop at h
      cases hdec : State.decode b with
      | none =>
        rw [hdec] at h
        exact Option.noConfusion h
      | some state =>
        rw [hdec] at h
        intro r hr
        exact ih _ _ _ _ h r (List.mem_append_left _ hr)

lemma decodeAux_isSome : ∀ fuel i id, id < 2 ^ fuel → id < 2 ^ (11 - i) →
    ∃ t, decodeAux fuel id i = some t := by
  intro fuel
  induction fuel with
  | zero =>
    intro i id h1 _
    have h0 : id = 0 := by simpa using h1
    exact ⟨[], by unfold decodeAux; rw [if_pos h0]⟩
  | succ fuel ih =>
    intro i id h1 h2
    by_cases h0 : id = 0
    · exact ⟨[], by unfold decodeAux; rw [if_pos h0]⟩
    · have hi : 1 ≤ 11 - i := by
        by_contra hc
        have hz : 11 - i = 0 := by omega
        rw [hz, pow_zero] at h2
        omega
      have hid2 : id / 2 < 2 ^ fuel := by
        rw [pow_succ] at h1
        exact Nat.div_lt_of_lt_mul (by omega)
      have hi2 : id / 2 < 2 ^ (11 - (i + 1)) := by
        have hd : 11 - i = (11 - (i + 1)) + 1 := by omega
        rw [hd, pow_succ] at h2
        exact Nat.div_lt_of_lt_mul (by omega)
      obtain ⟨r, hr⟩ := ih (i + 1) (id / 2) hid2 hi2
      by_cases hm : id % 2 = 1
      · have hi10 : i ≤ 10 := by omega
        have hfi : ∃ b, StateBits.fromIdx i = some b := by
          interval_cases i <;> exact ⟨_, rfl⟩
        obtain ⟨b, hb⟩ := hfi
        exact ⟨b :: r, by rw [decodeAux_succ _ _ _ h0, if_pos hm, hb, hr]⟩
      · exact ⟨r, by rw [decodeAux_succ _ _ _ h0, if_neg hm, hr]⟩

lemma decode_isSome_of_lt {m : Nat} (h : m < 2048) : ∃ t, State.decode m = some t := by
  have h1 : m < 2 ^ 64 := by
    have h64 : (2 : Nat) ^ 64 = 18446744073709551616 := by norm_num
    omega
  have h2 : m < 2 ^ (11 - 0) := by
    have h11 : (2 : Nat) ^ (11 - 0) = 2048 := by norm_num
    omega
  exact decodeAux_isSome 64 0 m h1 h2

/-- Count of encodings below `2 ^ 11` not yet seen by the search. -/
def freshCount (mem buf : List Nat) : Nat :=
  ((Finset.range 2048).filter (fun e => e ∉ mem ∧ e ∉ buf)).card

lemma freshCount_pop (b : Nat) (mem buf : List Nat) :
    freshCount mem (b :: buf) = freshCount (b :: mem) buf := by
  unfold freshCount
  have h : ∀ e ∈ Finset.range 2048, ((e ∉ mem ∧ e ∉ b :: buf) ↔ (e ∉ b :: mem ∧ e ∉ buf)) := by
    intro e _
    simp only [List.mem_cons]
    constructor
    · rintro ⟨h1, h2⟩
      exact ⟨fun h => h.elim (fun he => h2 (Or.inl he)) h1, fun h => h2 (Or.inr h)⟩
    · rintro ⟨h1, h2⟩
      exact ⟨fun h => h1 (Or.inr h), fun h => h.elim (fun he => h1 (Or.inl he)) h2⟩
  rw [Finset.filter_congr h]

lemma freshCount_append (P : List Nat) (mem buf : List Nat) (hnd : P.Nodup)
    (hP : ∀ e ∈ P, e ∉ mem ∧ e ∉ buf ∧ e < 2048) :
    freshCount mem (P ++ buf) = freshCount mem buf - P.length ∧
    P.length ≤ freshCount mem buf := by
  unfold freshCount
  have hsub : P.toFinset ⊆ (Finset.range 2048).filter (fun e => e ∉ mem ∧ e ∉ buf) := by
    intro e he
    rw [List.mem_toFinset] at he
    obtain ⟨h1, h2, h3⟩ := hP e he
    exact Finset.mem_filter.2 ⟨Finset.mem_range.2 h3, h1, h2⟩
  have hcard : P.toFinset.card = P.length := List.toFinset_card_of_nodup hnd
  have hset : (Finset.range 2048).filter (fun e => e ∉ mem ∧ e ∉ (P ++ buf)) =
      ((Finset.range 2048).filter (fun e => e ∉ mem ∧ e ∉ buf)) \ P.toFinset := by
    ext e
    simp only [Finset.mem_filter, Finset.mem_sdiff, List.mem_append, List.mem_toFinset]
    constructor
    · rintro ⟨hr, h1, h2⟩
      exact ⟨⟨hr, h1, fun h => h2 (Or.inr h)⟩, fun h => h2 (Or.inl h)⟩
    · rintro ⟨⟨hr, h1, h2⟩, h3⟩
      exact ⟨hr, h1, fun h => h.elim h3 h2⟩
  constructor
  · rw [hset, Finset.card_sdiff hsub, hcard]
  · calc P.length = P.toFinset.card := hcard.symm
      _ ≤ _ := Finset.card_le_card hsub

lemma bfsLoop_isSome : ∀ (fuel : Nat) (tbl : List TransitionRow) (buf mem : List Nat),
    (∀ e ∈ buf, e < 2048) → buf.length + 2 * freshCount mem buf ≤ fuel →
    ∃ res, bfsLoop fuel tbl buf mem = some res := by
  intro fuel
  induction fuel with
  | zero =>
    intro tbl buf mem hlt hm
    cases buf with
    | nil => exact ⟨tbl, rfl⟩
    | cons b buffer => simp at hm
  | succ fuel ih =>
    intro tbl buf mem hlt hm
    cases buf with
    | nil => exact ⟨tbl, rfl⟩
    | cons b buffer =>
      obtain ⟨sdec, hdec⟩ := decode_isSome_of_lt (hlt b (List.mem_cons_self _ _))
      have hnd : sdec.Nodup := decode_nodup hdec
      obtain ⟨P, hP, hPnd, hPp⟩ :=
        @charLoop_buffer_shape b sdec (b :: mem) 256 0 buffer
      have hPp' : ∀ e ∈ P, e ∉ (b :: mem) ∧ e ∉ buffer ∧ e < 2048 := by
        intro e he
        obtain ⟨h1, h2, c, hc⟩ := hPp e he
        exact ⟨h1, h2, hc ▸ encode_lt (nodup_mutate _ hnd)⟩
      obtain ⟨hfc, hple⟩ := freshCount_append P (b :: mem) buffer hPnd hPp'
      have hlt1 : ∀ e ∈ (charLoop b sdec (b :: mem) 0 256 buffer).2, e < 2048 := by
        rw [hP]
        intro e he
        rcases List.mem_append.1 he with heP | heB
        · exact (hPp' e heP).2.2
        · exact hlt e (List.mem_cons_of_mem _ heB)
      have hkey : (charLoop b sdec (b :: mem) 0 256 buffer).2.length +
          2 * freshCount (b :: mem) (charLoop b sdec (b :: mem) 0 256 buffer).2 ≤ fuel := by
        rw [hP, hfc, List.length_append]
        have hm' := hm
        rw [List.length_cons, freshCount_pop] at hm'
        omega
      obtain ⟨res, hres⟩ := ih (tbl ++ (charLoop b sdec (b :: mem) 0 256 buffer).1)
        (charLoop b sdec (b :: mem) 0 256 buffer).2 (b :: mem) hlt1 hkey
      refine ⟨res, ?_⟩
      unfold bfsLoop
      rw [hdec]
      exact hres

lemma bfs_eq_some : bfs_gen_lookup_table = some lookupTable := by
  have hstart : encode State.start = 0 := rfl
  have hfresh : freshCount [] [encode State.start] ≤ 2048 := by
    unfold freshCount
    calc ((Finset.range 2048).filter _).card ≤ (Finset.range 2048).card :=
          Finset.card_filter_le _ _
      _ = 2048 := Finset.card_range 2048
  obtain ⟨res, hres⟩ := bfsLoop_isSome 8192 [] [encode State.start] []
    (by intro e he; simp [hstart] at he; omega)
    (by simp only [List.length_singleton]; omega)
  have hb : bfs_gen_lookup_table = some res := hres
  unfold lookupTable
  rw [hb]
  rfl

lemma bfsLoop_good : ∀ (fuel : Nat) (tbl : List TransitionRow) (buf mem : List Nat)
    (res : List TransitionRow), bfsLoop fuel tbl buf mem = some res →
    (∀ r ∈ tbl, rowDeterministic r = true) → ∀ r ∈ res, rowDeterministic r = true := by
  intro fuel
  induction fuel with
  | zero =>
    intro tbl buf mem res h htbl
    cases buf with
    | nil =>
      unfold bfsLoop at h
      cases h
      exact htbl
    | cons b buffer => exact Option.noConfusion h
  | succ fuel ih =>
    intro tbl buf mem res h htbl
    cases buf with
    | nil =>
      unfold bfsLoop at h
      cases h
      exact htbl
    | cons b buffer =>
      unfold bfsLoop at h
      cases hdec : State.decode b with
      | none =>
        rw [hdec] at h
        exact Option.noConfusion h
      | some state =>
        rw [hdec] at h
        dsimp only at h
        refine ih _ _ _ _ h ?_
        intro r hr
        rcases List.mem_append.1 hr with hr | hr
        · exact htbl r hr
        · obtain ⟨c, rfl⟩ := charLoop_fst_shape 256 0 buffer r hr
          unfold rowDeterministic
          rw [hdec]
          simp

/-- Encodings derivable from a list of root encodings through the
decode-mutate-encode successor relation used by the table generator. -/
inductive EncReach (roots : List Nat) : Nat → Prop where
  | base {e : Nat} : e ∈ roots → EncReach roots e
  | step {e : Nat} {s : State} (c : Nat) : EncReach roots e → State.decode e = some s →
      c < 256 → EncReach roots (encode (mutate s (SpecialChar.ofCode c)))

lemma encReach_mono {r1 r2 : List Nat} (hsub : ∀ e ∈ r1, e ∈ r2) {e : Nat}
    (h : EncReach r1 e) : EncReach r2 e := by
  induction h with
  | base he => exact .base (hsub _ he)
  | step c _ hdec hc ih => exact .step c ih hdec hc

lemma encReach_closed {mem : List Nat}
    (hcl : ∀ e ∈ mem, ∃ s, State.decode e = some s ∧ ∀ c, c < 256 →
      encode (mutate s (SpecialChar.ofCode c)) ∈ mem) :
    ∀ x, EncReach mem x → x ∈ mem := by
  intro x hx
  induction hx with
  | base hb => exact hb
  | step c _ hdec hc ihx =>
    obtain ⟨s', hdec', hsucc⟩ := hcl _ ihx
    rw [hdec'] at hdec
    have hss := Option.some.inj hdec
    subst hss
    exact hsucc c hc

lemma bfsLoop_closed : ∀ (fuel : Nat) (tbl : List TransitionRow) (buf mem : List Nat)
    (res : List TransitionRow), bfsLoop fuel tbl buf mem = some res →
    (∀ e ∈ mem, ∃ s, State.decode e = some s ∧ ∀ c, c < 256 →
      ((e, encode (mutate s (SpecialChar.ofCode c)), c) ∈ tbl ∧
       (encode (mutate s (SpecialChar.ofCode c)) ∈ mem ∨
        encode (mutate s (SpecialChar.ofCode c)) ∈ buf))) →
    ∀ e, EncReach (mem ++ buf) e → ∀ c, c < 256 →
      ∃ s, State.decode e = some s ∧ (e, encode (mutate s (SpecialChar.ofCode c)), c) ∈ res := by
  intro fuel
  induction fuel with
  | zero =>
    intro tbl buf mem res h hmem e hreach c hc
    cases buf with
    | nil =>
      unfold bfsLoop at h
      cases h
      have hcl : ∀ x ∈ mem, ∃ s, State.decode x = some s ∧ ∀ c', c' < 256 →
          encode (mutate s (SpecialChar.ofCode c')) ∈ mem := by
        intro x hxm
        obtain ⟨s, hd, hall⟩ := hmem x hxm
        exact ⟨s, hd, fun c' hc' => ((hall c' hc').2).resolve_right (by simp)⟩
      have he : e ∈ mem := encReach_closed hcl e (encReach_mono (by simp) hreach)
      obtain ⟨s, hd, hall⟩ := hmem e he
      exact ⟨s, hd, (hall c hc).1⟩
    | cons b buffer => exact Option.noConfusion h
  | succ fuel ih =>
    intro tbl buf mem res h hmem e hreach c hc
    cases buf with
    | nil =>
      unfold bfsLoop at h
      cases h
      have hcl : ∀ x ∈ mem, ∃ s, State.decode x = some s ∧ ∀ c', c' < 256 →
          encode (mutate s (SpecialChar.ofCode c')) ∈ mem := by
        intro x hxm
        obtain ⟨s, hd, hall⟩ := hmem x hxm
        exact ⟨s, hd, fun c' hc' => ((hall c' hc').2).resolve_right (by simp)⟩
      have he : e ∈ mem := encReach_closed hcl e (encReach_mono (by simp) hreach)
      obtain ⟨s, hd, hall⟩ := hmem e he
      exact ⟨s, hd, (hall c hc).1⟩
    | cons b buffer =>
      unfold bfsLoop at h
      cases hdec : State.decode b with
      | none =>
        rw [hdec] at h
        exact Option.noConfusion h
      | some state =>
        rw [hdec] at h
        dsimp only at h
        refine ih _ _ _ _ h ?_ e ?_ c hc
        · intro x hx
          rcases List.mem_cons.1 hx with rfl | hxm
          · refine ⟨state, hdec, fun c' hc' => ⟨?_, ?_⟩⟩
            · exact List.mem_append_right _
                (charLoop_mem_fst 256 0 buffer c' (Nat.zero_le _) (by omega))
            · exact charLoop_covers 256 0 buffer c' (Nat.zero_le _) (by omega)
          · obtain ⟨s', hdec', hall⟩ := hmem x hxm
            refine ⟨s', hdec', fun c' hc' => ⟨List.mem_append_left _ (hall c' hc').1, ?_⟩⟩
            rcases (hall c' hc').2 with hin | hin
            · exact Or.inl (List.mem_cons_of_mem _ hin)
            · rcases List.mem_cons.1 hin with rfl | hin
              · exact Or.inl (List.mem_cons_self _ _)
              · exact Or.inr (charLoop_buffer_mono 256 0 buffer _ hin)
        · refine encReach_mono ?_ hreach
          intro x hx
          rcases List.mem_append.1 hx with hx | hx
          · exact List.mem_append_left _ (List.mem_cons_of_mem _ hx)
          · rcases List.mem_cons.1 hx with rfl | hx
            · exact List.mem_append_left _ (List.mem_cons_self _ _)
            · exact List.mem_append_right _ (charLoop_buffer_mono 256 0 buffer _ hx)

lemma lookupTable_good : ∀ r ∈ lookupTable, rowDeterministic r = true := by
  have h : bfsLoop 8192 [] [encode State.start] [] = some lookupTable := bfs_eq_some
  exact bfsLoop_good 8192 [] [encode State.start] [] lookupTable h (by intro r hr; simp at hr)

lemma mem_lookupTable_656 : (656, 912, 92) ∈ lookupTable := by
  have h : bfsLoop 8192 [] [encode State.start] [] = some lookupTable := bfs_eq_some
  have h0 : EncReach ([] ++ [encode State.start]) 0 := .base (by decide)
  have h2 : EncReach ([] ++ [encode State.start]) 2 := by
    have hd : State.decode 0 = some [] := by decide
    have he : encode (mutate [] (SpecialChar.ofCode 123)) = 2 := by decide
    exact he ▸ EncReach.step 123 h0 hd (by omega)
  have h656 : EncReach ([] ++ [encode State.start]) 656 := by
    have hd : State.decode 2 = some [StateBits.NewDict] := by decide
    have he : encode (mutate [StateBits.NewDict] (SpecialChar.ofCode 34)) = 656 := by decide
    exact he ▸ EncReach.step 34 h2 hd (by omega)
  obtain ⟨s, hdec, hmem⟩ := bfsLoop_closed 8192 [] [encode State.start] [] lookupTable h
    (by intro e he; simp at he) 656 h656 92 (by omega)
  have hs : s = [StateBits.IsKey, StateBits.IsStr, StateBits.WordBuffering] := by
    have hd : State.decode 656 = some [StateBits.IsKey, StateBits.IsStr, StateBits.WordBuffering] := by
      decide
    rw [hd] at hdec
    exact (Option.some.inj hdec).symm
  subst hs
  have he : encode (mutate [StateBits.IsKey, StateBits.IsStr, StateBits.WordBuffering]
      (SpecialChar.ofCode 92)) = 912 := by decide
  rw [he] at hmem
  exact hmem

/-- Claim C2 counterexample: the generated table contains the row
`(656, 912, 92)` — state `[IsKey, IsStr, WordBuffering]` reading a
backslash — and re-applying the transition function to the decoded
before-state does not return the decoded after-state as a `State` value:
the transition function pushes `IsStrEscaped` after `WordBuffering`
whereas decoding sorts the flags by bit index. -/
theorem c2_counterexample :
    (656, 912, 92) ∈ lookupTable ∧
    State.decode 656 = some [StateBits.IsKey, StateBits.IsStr, StateBits.WordBuffering] ∧
    State.decode 912 =
      some [StateBits.IsKey, StateBits.IsStr, StateBits.IsStrEscaped, StateBits.WordBuffering] ∧
    mutate [StateBits.IsKey, StateBits.IsStr, StateBits.WordBuffering] (SpecialChar.ofCode 92) ≠
      [StateBits.IsKey, StateBits.IsStr, StateBits.IsStrEscaped, StateBits.WordBuffering] :=
  ⟨mem_lookupTable_656, by decide, by decide, by decide⟩

/-- Claim C2 amended: every row of the generated transition table passes
the source test's determinism check — decoding `before`, applying the
transition function to the classified input and re-encoding yields
exactly the stored `after`; re-running the (pure, deterministic)
generator reproduces this same table.  Equality holds at encoding level,
not as `State`-list equality. -/
theorem c2_table_amended : lookupTable.all rowDeterministic = true := by
  rw [List.all_eq_true]
  exact lookupTable_good

lemma mem_settle1 {s : State} {b : StateBits} (k1 : b ≠ .IsKey) (k2 : b ≠ .NewDict) :
    b ∈ settle1 s ↔ b ∈ s := by
  unfold settle1
  split
  · simp [mem_off, mem_on, k1, k2]
  · exact Iff.rfl

lemma mem_settle2 {s : State} {b : StateBits} (k1 : b ≠ .WordComplete) (k2 : b ≠ .EndDict) :
    b ∈ settle2 s ↔ b ∈ s := by
  unfold settle2
  split
  · simp [mem_off, mem_on, k1, k2]
  · exact Iff.rfl

lemma mem_settle3 {s : State} {b : StateBits} (k1 : b ≠ .IsKey) (k2 : b ≠ .Separator) :
    b ∈ settle3 s ↔ b ∈ s := by
  unfold settle3
  split
  · simp [mem_off, mem_on, k1, k2]
  · exact Iff.rfl

lemma mem_settle4 {s : State} {b : StateBits} (k1 : b ≠ .IsValue) (k2 : b ≠ .KeyValueDelimiter) :
    b ∈ settle4 s ↔ b ∈ s := by
  unfold settle4
  split
  · simp [mem_off, mem_on, k1, k2]
  · exact Iff.rfl

lemma mem_settle_of_ne {s : State} {b : StateBits} (k1 : b ≠ .IsKey) (k2 : b ≠ .NewDict)
    (k3 : b ≠ .WordComplete) (k4 : b ≠ .EndDict) (k5 : b ≠ .Separator) (k6 : b ≠ .IsValue)
    (k7 : b ≠ .KeyValueDelimiter) : b ∈ settle s ↔ b ∈ s := by
  unfold settle
  rw [mem_settle4 k6 k7, mem_settle3 k1 k5, mem_settle2 k3 k4, mem_settle1 k1 k2]

lemma settle_isInvalid {s : State} : StateBits.IsInvalid ∈ settle s ↔ StateBits.IsInvalid ∈ s :=
  mem_settle_of_ne (by decide) (by decide) (by decide) (by decide) (by decide) (by decide)
    (by decide)

lemma settle_isStr {s : State} : StateBits.IsStr ∈ settle s ↔ StateBits.IsStr ∈ s :=
  mem_settle_of_ne (by decide) (by decide) (by decide) (by decide) (by decide) (by decide)
    (by decide)

lemma settle_isStrEscaped {s : State} :
    StateBits.IsStrEscaped ∈ settle s ↔ StateBits.IsStrEscaped ∈ s :=
  mem_settle_of_ne (by decide) (by decide) (by decide) (by decide) (by decide) (by decide)
    (by decide)

lemma not_newDict_settle1 (s : State) : StateBits.NewDict ∉ settle1 s := by
  unfold settle1
  split
  · simp [mem_off]
  · rename_i h
    simpa [State.check] using h

lemma not_endDict_settle2 (s : State) : StateBits.EndDict ∉ settle2 s := by
  unfold settle2
  split
  · simp [mem_off]
  · rename_i h
    simpa [State.check] using h

lemma not_separator_settle3 (s : State) : StateBits.Separator ∉ settle3 s := by
  unfold settle3
  split
  · simp [mem_off]
  · rename_i h
    simpa [State.check] using h

lemma not_kvd_settle4 (s : State) : StateBits.KeyValueDelimiter ∉ settle4 s := by
  unfold settle4
  split
  · simp [mem_off]
  · rename_i h
    simpa [State.check] using h

lemma settle_no_newDict (s : State) : StateBits.NewDict ∉ settle s := by
  unfold settle
  intro h
  exact not_newDict_settle1 s
    ((mem_settle2 (by decide) (by decide)).1
      ((mem_settle3 (by decide) (by decide)).1 ((mem_settle4 (by decide) (by decide)).1 h)))

lemma settle_no_endDict (s : State) : StateBits.EndDict ∉ settle s := by
  unfold settle
  intro h
  exact not_endDict_settle2 (settle1 s)
    ((mem_settle3 (by decide) (by decide)).1 ((mem_settle4 (by decide) (by decide)).1 h))

lemma settle_no_separator (s : State) : StateBits.Separator ∉ settle s := by
  unfold settle
  intro h
  exact not_separator_settle3 (settle2 (settle1 s)) ((mem_settle4 (by decide) (by decide)).1 h)

lemma settle_no_kvd (s : State) : StateBits.KeyValueDelimiter ∉ settle s := by
  unfold settle
  intro h
  exact not_kvd_settle4 (settle3 (settle2 (settle1 s))) h

lemma mutate_invalid {s : State} (a : SpecialChar) (h : State.check s .IsInvalid = true) :
    mutate s a = s := by
  unfold mutate
  rw [if_pos h]

lemma matchLogic_colon_structural {u : State} (hesc : State.check u .IsStrEscaped = false)
    (hnull : u.is_null = false) (hstr : State.check u .IsStr = false) :
    matchLogic u .Colon =
      (if u.check .IsKey then ((u.on .KeyValueDelimiter).off .IsKey).off .WordComplete
       else State.invalid) := by
  unfold matchLogic
  rw [if_neg (by simp [hesc]), if_neg (by simp [hnull]), if_neg (by simp [hstr])]

lemma matchLogic_colon_null {u : State} (hesc : State.check u .IsStrEscaped = false)
    (hnull : u.is_null = true) : matchLogic u .Colon = State.invalid := by
  unfold matchLogic
  rw [if_neg (by simp [hesc]), if_pos hnull]

lemma matchLogic_other_structural {u : State} (hesc : State.check u .IsStrEscaped = false)
    (hnull : u.is_null = false) (hstr : State.check u .IsStr = false) :
    matchLogic u .Other = State.invalid := by
  unfold matchLogic
  rw [if_neg (by simp [hesc]), if_neg (by simp [hnull]), if_neg (by simp [hstr])]

lemma matchLogic_other_null {u : State} (hesc : State.check u .IsStrEscaped = false)
    (hnull : u.is_null = true) : matchLogic u .Other = State.invalid := by
  unfold matchLogic
  rw [if_neg (by simp [hesc]), if_pos hnull]

lemma matchLogic_backslash_structural {u : State} (hesc : State.check u .IsStrEscaped = false)
    (hnull : u.is_null = false) (hstr : State.check u .IsStr = false) :
    matchLogic u .Backslash = State.invalid := by
  unfold matchLogic
  rw [if_neg (by simp [hesc]), if_neg (by simp [hnull]), if_neg (by simp [hstr])]

/-- Claim C9: if, after the settle rules have resolved, the state is
nonempty and carries none of `IsInvalid`, `IsStrEscaped` or `IsStr`,
then a backslash falls through to the structural wildcard arm and the
state is replaced wholesale by the singleton invalid state. -/
theorem c9_backslash_structural_invalid (s : State)
    (h0 : State.is_null (settle s) = false)
    (h1 : State.check (settle s) .IsInvalid = false)
    (h2 : State.check (settle s) .IsStrEscaped = false)
    (h3 : State.check (settle s) .IsStr = false) :
    mutate s .Backslash = State.invalid := by
  have hsinv : State.check s .IsInvalid = false := by
    rw [check_false_iff] at h1 ⊢
    exact fun hm => h1 (settle_isInvalid.2 hm)
  unfold mutate
  rw [if_neg (by simp [hsinv])]
  exact matchLogic_backslash_structural h2 h0 h3

theorem c9_backslash_structural_invalid_witness :
    mutate [StateBits.IsValue] .Backslash = State.invalid :=
  c9_backslash_structural_invalid [StateBits.IsValue] (by decide) (by decide) (by decide)
    (by decide)

lemma other_invalid (s : State) (h1 : StateBits.IsStr ∉ s) (h2 : StateBits.IsStrEscaped ∉ s) :
    State.check (mutate s .Other) .IsInvalid = true := by
  by_cases hinv : State.check s .IsInvalid = true
  · rw [mutate_invalid _ hinv]
    exact hinv
  · have hinv' : State.check s .IsInvalid = false := by
      cases hb : State.check s .IsInvalid
      · rfl
      · exact absurd hb hinv
    unfold mutate
    rw [if_neg (by simp [hinv'])]
    have hs2 : State.check (settle s) .IsStrEscaped = false := by
      rw [check_false_iff]
      exact fun hm => h2 (settle_isStrEscaped.1 hm)
    by_cases hnull : State.is_null (settle s) = true
    · rw [matchLogic_other_null hs2 hnull]
      decide
    · have hnull' : State.is_null (settle s) = false := by
        cases hb : State.is_null (settle s)
        · rfl
        · exact absurd hb hnull
      have hs3 : State.check (settle s) .IsStr = false := by
        rw [check_false_iff]
        exact fun hm => h1 (settle_isStr.1 hm)
      rw [matchLogic_other_structural hs2 hnull' hs3]
      decide

lemma mem_is_null_false {s : State} {b : StateBits} (h : b ∈ s) : State.is_null s = false := by
  cases s with
  | nil => simp at h
  | cons x xs => rfl

lemma colon_colon_invalid (s : State) (h1 : StateBits.IsStr ∉ s)
    (h2 : StateBits.IsStrEscaped ∉ s) :
    State.check (mutate (mutate s .Colon) .Colon) .IsInvalid = true := by
  by_cases hinv : State.check s .IsInvalid = true
  · rw [mutate_invalid _ hinv, mutate_invalid _ hinv]
    exact hinv
  · have hinv' : State.check s .IsInvalid = false := by
      cases hb : State.check s .IsInvalid
      · rfl
      · exact absurd hb hinv
    have hs2 : State.check (settle s) .IsStrEscaped = false := by
      rw [check_false_iff]
      exact fun hm => h2 (settle_isStrEscaped.1 hm)
    by_cases hnull : State.is_null (settle s) = true
    · have hm1 : mutate s .Colon = State.invalid := by
        unfold mutate
        rw [if_neg (by simp [hinv'])]
        exact matchLogic_colon_null hs2 hnull
      rw [hm1]
      decide
    · have hnull' : State.is_null (settle s) = false := by
        cases hb : State.is_null (settle s)
        · rfl
        · exact absurd hb hnull
      have hs3 : State.check (settle s) .IsStr = false := by
        rw [check_false_iff]
        exact fun hm => h1 (settle_isStr.1 hm)
      have hmatch := matchLogic_colon_structural hs2 hnull' hs3
      by_cases hkey : (settle s).check .IsKey = true
      · have hm1 : mutate s .Colon =
            (((settle s).on .KeyValueDelimiter).off .IsKey).off .WordComplete := by
          unfold mutate
          rw [if_neg (by simp [hinv']), hmatch, if_pos hkey]
        have huInv : StateBits.IsInvalid ∉ settle s := by
          rw [check_false_iff] at hinv'
          exact fun hm => hinv' (settle_isInvalid.1 hm)
        have htKVD : StateBits.KeyValueDelimiter ∈
            (((settle s).on .KeyValueDelimiter).off .IsKey).off .WordComplete := by
          simp [mem_off, mem_on]
        have htKey : StateBits.IsKey ∉
            (((settle s).on .KeyValueDelimiter).off .IsKey).off .WordComplete := by
          simp [mem_off, mem_on]
        have htInv : StateBits.IsInvalid ∉
            (((settle s).on .KeyValueDelimiter).off .IsKey).off .WordComplete := by
          simp [mem_off, mem_on, huInv]
        have htStr : StateBits.IsStr ∉
            (((settle s).on .KeyValueDelimiter).off .IsKey).off .WordComplete := by
          rw [check_false_iff] at hs3
          simp [mem_off, mem_on, hs3]
        have htEsc : StateBits.IsStrEscaped ∉
            (((settle s).on .KeyValueDelimiter).off .IsKey).off .WordComplete := by
          rw [check_false_iff] at hs2
          simp [mem_off, mem_on, hs2]
        have htND : StateBits.NewDict ∉
            (((settle s).on .KeyValueDelimiter).off .IsKey).off .WordComplete := by
          simp [mem_off, mem_on, settle_no_newDict s]
        have htED : StateBits.EndDict ∉
            (((settle s).on .KeyValueDelimiter).off .IsKey).off .WordComplete := by
          simp [mem_off, mem_on, settle_no_endDict s]
        have htSep : StateBits.Separator ∉
            (((settle s).on .KeyValueDelimiter).off .IsKey).off .WordComplete := by
          simp [mem_off, mem_on, settle_no_separator s]
        rw [hm1]
        set t := (((settle s).on .KeyValueDelimiter).off .IsKey).off .WordComplete with ht
        have hst : settle t = (t.on .IsValue).off .KeyValueDelimiter := by
          unfold settle
          have e1 : settle1 t = t := by
            unfold settle1
            rw [if_neg (by simp [State.check, htND])]
          have e2 : settle2 t = t := by
            unfold settle2
            rw [if_neg (by simp [State.check, htED])]
          have e3 : settle3 t = t := by
            unfold settle3
            rw [if_neg (by simp [State.check, htSep])]
          rw [e1, e2, e3]
          unfold settle4
          rw [if_pos (by simp [State.check, htKVD])]
        have hvVal : StateBits.IsValue ∈ (t.on .IsValue).off .KeyValueDelimiter := by
          simp [mem_off, mem_on]
        have hvEsc : State.check ((t.on .IsValue).off .KeyValueDelimiter) .IsStrEscaped = false := by
          rw [check_false_iff]
          simp [mem_off, mem_on, htEsc]
        have hvStr : State.check ((t.on .IsValue).off .KeyValueDelimiter) .IsStr = false := by
          rw [check_false_iff]
          simp [mem_off, mem_on, htStr]
        have hvKey : State.check ((t.on .IsValue).off .KeyValueDelimiter) .IsKey = false := by
          rw [check_false_iff]
          simp [mem_off, mem_on, htKey]
        have hvNull : State.is_null ((t.on .IsValue).off .KeyValueDelimiter) = false :=
          mem_is_null_false hvVal
        have htInvCheck : State.check t .IsInvalid = false := by
          rw [check_false_iff]
          exact htInv
        unfold mutate
        rw [if_neg (by simp [htInvCheck]), hst,
          matchLogic_colon_structural hvEsc hvNull hvStr, if_neg (by simp [hvKey])]
        decide
      · have hm1 : mutate s .Colon = State.invalid := by
          unfold mutate
          rw [if_neg (by simp [hinv']), hmatch, if_neg hkey]
        rw [hm1]
        decide

/-- Claim C7 counterexample: the character sequence of an object whose
key string contains two consecutive colons (codes at positions 3 and 4
are both `0x3a`) folds from the empty start state through valid states
only — the universal claim fails because colons inside a string literal
are no-ops. -/
theorem c7_counterexample :
    [0x7b, 0x22, 0x61, 0x3a, 0x3a, 0x62, 0x22, 0x3a, 0x20, 0x31, 0x7d].get? 3 =
        some 0x3a ∧
    [0x7b, 0x22, 0x61, 0x3a, 0x3a, 0x62, 0x22, 0x3a, 0x20, 0x31, 0x7d].get? 4 =
        some 0x3a ∧
    (runStates State.start [0x7b, 0x22, 0x61, 0x3a, 0x3a, 0x62, 0x22, 0x3a, 0x20, 0x31, 0x7d]).all
      (fun s => !(State.check s .IsInvalid)) = true := by decide

/-- Claim C7 amended: outside string context (no `IsStr` and no
`IsStrEscaped` flag), two consecutive colons always drive the machine
into `IsInvalid`, and an `Other`-class character (e.g. a bare,
unquoted key letter) always yields `IsInvalid`. -/
theorem c7_rejection_amended :
    (∀ s : State, StateBits.IsStr ∉ s → StateBits.IsStrEscaped ∉ s →
      State.check (mutate (mutate s .Colon) .Colon) .IsInvalid = true) ∧
    (∀ s : State, StateBits.IsStr ∉ s → StateBits.IsStrEscaped ∉ s →
      State.check (mutate s .Other) .IsInvalid = true) :=
  ⟨colon_colon_invalid, other_invalid⟩

theorem c7_rejection_amended_witness :
    State.check (mutate (mutate [StateBits.IsKey] .Colon) .Colon) .IsInvalid = true ∧
    State.check (mutate State.start .Other) .IsInvalid = true :=
  ⟨c7_rejection_amended.1 [StateBits.IsKey] (by decide) (by decide),
   c7_rejection_amended.2 State.start (by decide) (by decide)⟩

/-- Character codes of the well-formed escape/nesting test input
`open-brace "a open-brace close-brace": 1, "b": "backslash-quote" close-brace`
(the source's `test_json_escaped_chars`). -/
def input1 : List Nat :=
  [0x7b, 0x22, 0x61, 0x7b, 0x7d, 0x22, 0x3a, 0x20, 0x31, 0x2c, 0x20,
   0x22, 0x62, 0x22, 0x3a, 0x20, 0x22, 0x5c, 0x22, 0x22, 0x7d]

/-- Character codes of the source's `test_json_escaped_chars_2` input,
whose first value string contains escaped quotes and raw open braces. -/
def input2 : List Nat :=
  [0x7b, 0x22, 0x61, 0x7b, 0x7d, 0x22, 0x3a, 0x20, 0x22, 0x20, 0x5c,
   0x22, 0x20, 0x7b, 0x20, 0x5c, 0x22, 0x20, 0x7b, 0x20, 0x5c, 0x22, 0x20, 0x22, 0x2c, 0x20,
   0x22, 0x62, 0x22, 0x3a, 0x20, 0x22, 0x5c, 0x22, 0x22, 0x7d]

/-- Per-pair check that a brace character inside a string leaves the
level column unchanged from the previous row. -/
def braceInStrKeepsLevel (prev cur : CircuitRow) : Bool :=
  if (cur.raw = fc 0x7b ∨ cur.raw = fc 0x7d) ∧ cur.not_str = 0 then
    decide (cur.level = prev.level)
  else true

/-- Fold `braceInStrKeepsLevel` over consecutive row pairs. -/
def allPairs : CircuitRow → List CircuitRow → Bool
  | _, [] => true
  | prev, cur :: rest => braceInStrKeepsLevel prev cur && allPairs cur rest

/-- Row-pair check over a whole witness. -/
def witnessBraceLevel (w : List CircuitRow) : Bool :=
  match w with
  | [] => true
  | first :: rest => allPairs first rest

set_option maxRecDepth 8000 in
/-- Claim C5: the witness assignments produced by the synthesize pass for
the two escape/nesting test inputs satisfy every enabled constraint of
the structural circuit, and on every row whose raw symbol is a brace
inside a string (`not_str = 0`) the level column equals the previous
row's level. -/
theorem c5_escaped_inputs_satisfiable :
    circuitCheck (synthRows (toF input1)) = true ∧
    circuitCheck (synthRows (toF input2)) = true ∧
    witnessBraceLevel (synthRows (toF input1)) = true ∧
    witnessBraceLevel (synthRows (toF input2)) = true := by
  refine ⟨by decide, by decide, by decide, by decide⟩

set_option maxRecDepth 8000 in
/-- Claim C6: `synthesize` performs no length check: for the one-symbol
input `open-brace` it assigns a full witness row (tagged with the start
selector only), and for the empty input it assigns no rows; in neither
case is the input rejected before witness assignment begins. -/
theorem c6_no_short_input_rejection :
    (synthRows (toF [0x7b])).length = 1 ∧ synthRows (toF []) = [] := by
  refine ⟨by decide, by decide⟩

/-- Forged row 0 for the unbalanced input: `str_escaped` is set on the
start row, which no enabled gate constrains. -/
def cheatRow0 : CircuitRow :=
  { raw := fc 0x7b, backslash_inv := 1, double_quote_inv := 1, open_brace_inv := 1,
    close_brace_inv := 1, backslash := 0, double_quote := 0, open_brace := 1, close_brace := 0,
    not_str := 1, str_escaped := 1, level := 1, level_inv := 1 }

/-- Forged row 1 (`"`); the fake escape on row 0 disables the toggle
gate, so `not_str` stays 1. -/
def cheatRow1 : CircuitRow :=
  { raw := fc 0x22, backslash_inv := fInv (fc 0x22 - fc 0x5c), double_quote_inv := 1,
    open_brace_inv := fInv (fc 0x22 - fc 0x7b), close_brace_inv := fInv (fc 0x22 - fc 0x7d),
    backslash := 0, double_quote := 1, open_brace := 0, close_brace := 0,
    not_str := 1, str_escaped := 0, level := 1, level_inv := 1 }

/-- Forged row 2 (`a`): outside a string the escape gate leaves
`str_escaped` unconstrained, so it is set to 1 again. -/
def cheatRow2 : CircuitRow :=
  { raw := fc 0x61, backslash_inv := fInv (fc 0x61 - fc 0x5c),
    double_quote_inv := fInv (fc 0x61 - fc 0x22),
    open_brace_inv := fInv (fc 0x61 - fc 0x7b), close_brace_inv := fInv (fc 0x61 - fc 0x7d),
    backslash := 0, double_quote := 0, open_brace := 0, close_brace := 0,
    not_str := 1, str_escaped := 1, level := 1, level_inv := 1 }

/-- Forged row 3 (`"`): with the fake escape on row 2 the toggle gate is
again disabled and `not_str` is dropped to 0. -/
def cheatRow3 : CircuitRow :=
  { raw := fc 0x22, backslash_inv := fInv (fc 0x22 - fc 0x5c), double_quote_inv := 1,
    open_brace_inv := fInv (fc 0x22 - fc 0x7b), close_brace_inv := fInv (fc 0x22 - fc 0x7d),
    backslash := 0, double_quote := 1, open_brace := 0, close_brace := 0,
    not_str := 0, str_escaped := 0, level := 1, level_inv := 1 }

/-- Forged row 4 (`:`). -/
def cheatRow4 : CircuitRow :=
  { raw := fc 0x3a, backslash_inv := fInv (fc 0x3a - fc 0x5c),
    double_quote_inv := fInv (fc 0x3a - fc 0x22),
    open_brace_inv := fInv (fc 0x3a - fc 0x7b), close_brace_inv := fInv (fc 0x3a - fc 0x7d),
    backslash := 0, double_quote := 0, open_brace := 0, close_brace := 0,
    not_str := 0, str_escaped := 0, level := 1, level_inv := 1 }

/-- Forged row 5 (`1`). -/
def cheatRow5 : CircuitRow :=
  { raw := fc 0x31, backslash_inv := fInv (fc 0x31 - fc 0x5c),
    double_quote_inv := fInv (fc 0x31 - fc 0x22),
    open_brace_inv := fInv (fc 0x31 - fc 0x7b), close_brace_inv := fInv (fc 0x31 - fc 0x7d),
    backslash := 0, double_quote := 0, open_brace := 0, close_brace := 0,
    not_str := 0, str_escaped := 0, level := 1, level_inv := 1 }

/-- Forged row 6 (the first `}`): claimed to be inside a string
(`not_str = 0`), so the level gates do not force a decrement. -/
def cheatRow6 : CircuitRow :=
  { raw := fc 0x7d, backslash_inv := fInv (fc 0x7d - fc 0x5c),
    double_quote_inv := fInv (fc 0x7d - fc 0x22),
    open_brace_inv := fInv (fc 0x7d - fc 0x7b), close_brace_inv := 1,
    backslash := 0, double_quote := 0, open_brace := 0, close_brace := 1,
    not_str := 0, str_escaped := 0, level := 1, level_inv := 1 }

/-- Forged row 7 (the second `}`, end row): body gates are off here, so
`not_str` may jump back to 1 and the end conditions are met. -/
def cheatRow7 : CircuitRow :=
  { raw := fc 0x7d, backslash_inv := 1, double_quote_inv := 1, open_brace_inv := 1,
    close_brace_inv := 1, backslash := 0, double_quote := 0, open_brace := 0, close_brace := 1,
    not_str := 1, str_escaped := 0, level := 0, level_inv := 1 }

/-- A forged witness assignment for the unbalanced-brace input. -/
def cheatWitness : List CircuitRow :=
  [cheatRow0, cheatRow1, cheatRow2, cheatRow3, cheatRow4, cheatRow5, cheatRow6, cheatRow7]

set_option maxRecDepth 8000 in
/-- Claim C4 evaluated at its failing input: for the unbalanced-brace
input with codes of `open-brace "a": 1 close-brace close-brace`, the
forged witness assignment above satisfies every enabled constraint of
the structural circuit — the constraint system is satisfiable, because
`str_escaped` is unconstrained outside strings and on the start row,
which lets a prover fake escapes and freeze or flip `not_str` at quote
rows. -/
theorem c4_forged_witness_satisfies :
    (cheatWitness.map (fun r => r.raw)) =
      toF [0x7b, 0x22, 0x61, 0x22, 0x3a, 0x31, 0x7d, 0x7d] ∧
    circuitCheck cheatWitness = true := by
  refine ⟨by decide, by decide⟩
